import Mathlib

/-!
Shallow embedding of `src/app.py` (a dice game comparing keep strategies).

Modelling conventions:
* Python's global random source is threaded explicitly as `RNG`: an
  arbitrary stream `f : Nat → Nat` plus a position.  `random.randint(1, 6)`
  consumes one stream value `n` and yields `n % 6 + 1`; `random.choice`
  consumes one stream value and uses it as an index modulo the list length.
  The field `rolls` is a ghost counter incremented only by `Dice.roll`,
  used to state how many individual die rolls a run performs.
* Failing Python code (the `assert` in `Turn.keep`, `min`/`random.choice`
  on an empty list) is embedded with `Option`, `none` meaning an exception.
* The unbounded `while not player.turn.over` loop is embedded with fuel;
  `Game.play` supplies `NUM_DICE + 1`, which is proved sufficient below.
-/

def NUM_DICE : Nat := 5

structure Dice where
  value : Nat
deriving DecidableEq, Repr

structure RNG where
  f : Nat → Nat
  pos : Nat
  rolls : Nat

def RNG.next (r : RNG) : Nat × RNG :=
  (r.f r.pos, { r with pos := r.pos + 1 })

/-- Python `random.randint(1, 6)`: the die face produced from one stream value. -/
def dieValue (n : Nat) : Nat := n % 6 + 1

/-- Source `Dice.roll` (static method): one uniformly-random die. -/
def Dice.roll (r : RNG) : Dice × RNG :=
  let (n, r1) := r.next
  (⟨dieValue n⟩, { r1 with rolls := r1.rolls + 1 })

structure Turn where
  kept_dice : List Dice
deriving DecidableEq, Repr

/-- Source `Turn.__init__`: a fresh turn holds no kept dice. -/
def Turn.init : Turn := ⟨[]⟩

/-- Roll `n` fresh dice in sequence. -/
def rollN : Nat → RNG → List Dice × RNG
  | 0, r => ([], r)
  | n + 1, r =>
    ((Dice.roll r).1 :: (rollN n (Dice.roll r).2).1, (rollN n (Dice.roll r).2).2)

/-- Source `Turn.roll`: roll `NUM_DICE - len(kept_dice)` fresh dice. -/
def Turn.roll (t : Turn) (r : RNG) : List Dice × RNG :=
  rollN (NUM_DICE - t.kept_dice.length) r

/-- Source `Turn.keep(*dice)`: `assert 1 <= len(dice) <= NUM_DICE - len(kept_dice)`,
then extend `kept_dice`.  `none` models the assertion failing. -/
def Turn.keep (t : Turn) (dice : List Dice) : Option Turn :=
  if 1 ≤ dice.length ∧ dice.length ≤ NUM_DICE - t.kept_dice.length then
    some ⟨t.kept_dice ++ dice⟩
  else
    none

/-- Source `Turn.over` property: all `NUM_DICE` dice kept. -/
def Turn.over (t : Turn) : Bool := t.kept_dice.length == NUM_DICE

inductive Strategy where
  | random
  | simple
  | keepOnes
  | keepOnesAndTwos
  | keepOnesUnlessLosing
deriving DecidableEq, Repr

structure Player where
  name : String
  strategy : Strategy
  turn : Turn
deriving DecidableEq, Repr

/-- Source `Player.score` property: sum of kept die values, a 3 contributing 0. -/
def Player.score (p : Player) : Nat :=
  p.turn.kept_dice.foldl (fun s d => if d.value ≠ 3 then s + d.value else s) 0

structure Game where
  players : List Player
deriving DecidableEq, Repr

/-- Scores of the players whose turn is over
(`[p.score for p in game.players if p.turn.over]`). -/
def priorScores (g : Game) : List Nat :=
  (g.players.filter (fun p => p.turn.over)).map Player.score

/-- Left fold of Python `min(..., key=value)`: ties keep the earlier die. -/
def pyMinFold (m : Dice) : List Dice → Dice
  | [] => m
  | x :: xs => pyMinFold (if x.value < m.value then x else m) xs

/-- Python `min(dice, key=lambda d: d.value)`; `none` on the empty list. -/
def pyMinFirst : List Dice → Option Dice
  | [] => none
  | d :: ds => some (pyMinFold d ds)

/-- Keep rule of `SimpleStrategy`: the die shows 3. -/
def simplePred (d : Dice) : Bool := d.value == 3

/-- Keep rule of `KeepOnesStrategy`: the die shows 3 or 1. -/
def keepOnesPred (d : Dice) : Bool := d.value == 3 || d.value == 1

/-- Keep rule of `KeepOnesAndTwosStrategy`: the die shows 3, 1 or 2. -/
def keepOnesAndTwosPred (d : Dice) : Bool :=
  d.value == 3 || d.value == 1 || d.value == 2

/-- Python `min` on a list of integers; `none` on the empty list. -/
def pyMinNat : List Nat → Option Nat
  | [] => none
  | s :: ss => some (ss.foldl Nat.min s)

/-- Python `len(prior_scores) > 0 and min(prior_scores) > player.score`. -/
def losingCond (g : Game) (player : Player) : Bool :=
  match pyMinNat (priorScores g) with
  | none => false
  | some m => decide (player.score < m)

/-- Keep rule of `KeepOnesUnlessLosingStrategy`. -/
def uolPred (g : Game) (player : Player) (d : Dice) : Bool :=
  d.value == 3 || (d.value == 1 && losingCond g player)

/-- Source `if not keep: keep = [min(dice, key=...)]` then `return keep`. -/
def fallbackOr (dice keep : List Dice) : Option (List Dice) :=
  if keep.isEmpty then (pyMinFirst dice).map (fun d => [d]) else some keep

def SimpleStrategyCall (dice : List Dice) : Option (List Dice) :=
  fallbackOr dice (dice.filter simplePred)

def KeepOnesStrategyCall (dice : List Dice) : Option (List Dice) :=
  fallbackOr dice (dice.filter keepOnesPred)

def KeepOnesAndTwosStrategyCall (dice : List Dice) : Option (List Dice) :=
  fallbackOr dice (dice.filter keepOnesAndTwosPred)

def KeepOnesUnlessLosingStrategyCall (g : Game) (player : Player)
    (dice : List Dice) : Option (List Dice) :=
  fallbackOr dice (dice.filter (uolPred g player))

/-- Source `RandomStrategy`: `[random.choice(dice)]`; `none` on the empty list. -/
def RandomStrategyCall (dice : List Dice) (r : RNG) :
    Option (List Dice × RNG) :=
  let (n, r1) := r.next
  match dice[n % dice.length]? with
  | some d => some ([d], r1)
  | none => none

/-- Dispatch `strategy(game, player, dice)`. -/
def runStrategy : Strategy → Game → Player → List Dice → RNG →
    Option (List Dice × RNG)
  | .random, _, _, dice, r => RandomStrategyCall dice r
  | .simple, _, _, dice, r => (SimpleStrategyCall dice).map (fun l => (l, r))
  | .keepOnes, _, _, dice, r =>
    (KeepOnesStrategyCall dice).map (fun l => (l, r))
  | .keepOnesAndTwos, _, _, dice, r =>
    (KeepOnesAndTwosStrategyCall dice).map (fun l => (l, r))
  | .keepOnesUnlessLosing, g, p, dice, r =>
    (KeepOnesUnlessLosingStrategyCall g p dice).map (fun l => (l, r))

/-- Source `Player.do_round(game)`: roll, let the strategy choose, keep. -/
def Player.do_round (p : Player) (g : Game) (r : RNG) :
    Option (Player × RNG) :=
  match runStrategy p.strategy g p (p.turn.roll r).1 (p.turn.roll r).2 with
  | none => none
  | some (kept, r2) =>
    match p.turn.keep kept with
    | none => none
    | some t => some ({ p with turn := t }, r2)

/-- One step of the winner scan in `Game.play`. -/
def winnersStep (winners : List Player) (player : Player) : List Player :=
  match winners with
  | [] => [player]
  | w :: _ =>
    if player.score < w.score then [player]
    else if player.score == w.score then winners ++ [player]
    else winners

/-- The winner scan of `Game.play` over the (finished) players. -/
def computeWinners (players : List Player) : List Player :=
  players.foldl winnersStep []

/-- The `while not player.turn.over: player.do_round(self)` loop for the
player at index `i`, with fuel. -/
def playerLoop : Nat → Nat → List Player → RNG → Option (List Player × RNG)
  | 0, _, _, _ => none
  | fuel + 1, i, ps, r =>
    match ps[i]? with
    | none => some (ps, r)
    | some p =>
      if p.turn.over then some (ps, r)
      else
        match p.do_round ⟨ps⟩ r with
        | none => none
        | some (p', r') => playerLoop fuel i (ps.set i p') r'

/-- Source `for player in active_players: while not player.turn.over: ...`,
processing `k` players starting at index `i`. -/
def playFrom : Nat → Nat → List Player → RNG → Option (List Player × RNG)
  | 0, _, ps, r => some (ps, r)
  | k + 1, i, ps, r =>
    match playerLoop (NUM_DICE + 1) i ps r with
    | none => none
    | some (ps', r') => playFrom k (i + 1) ps' r'

/-- Source `Game.play`: finish every player's turn in list order, then return the
players scanning as winners. -/
def Game.play (g : Game) (r : RNG) : Option (List Player × RNG) :=
  match playFrom g.players.length 0 g.players r with
  | none => none
  | some (ps, r') => some (computeWinners ps, r')

/-! Specification-side definitions (from the spec's words, for comparison). -/

/-- Spec: the minimum score over a list of players (0 if empty). -/
def minScoreSpec : List Player → Nat
  | [] => 0
  | p :: ps => ps.foldl (fun m q => Nat.min m q.score) p.score

/-- Helper: `Nat.min` folded from a seed, matching the winner-scan accumulator. -/
def minFrom (m : Nat) (ps : List Player) : Nat :=
  ps.foldl (fun a q => Nat.min a q.score) m

/-- Run a sequence of `keep` calls; `none` as soon as one fails. -/
def applyKeeps : Turn → List (List Dice) → Option Turn
  | t, [] => some t
  | t, ds :: rest =>
    match t.keep ds with
    | none => none
    | some t' => applyKeeps t' rest

/-- Dice a player still needs (0 for a missing index). -/
def stillNeeded : Option Player → Nat
  | some p => NUM_DICE - p.turn.kept_dice.length
  | none => 0

/-- Dice still needed by the `k` players starting at index `i`: a lower
bound on the rolls `playFrom` performs (the first roll of each player's
turn alone already rolls this many dice). -/
def neededRolls : List Player → Nat → Nat → Nat
  | _, _, 0 => 0
  | ps, i, k + 1 => stillNeeded ps[i]? + neededRolls ps (i + 1) k

/-! Concrete fixture: a one-player game whose stream makes `SimpleStrategy`
keep one die in the first round (values 3,4,4,4,4) and four in the second
(values 3,3,3,3), for a total of 5 + 4 = 9 individual die rolls. -/

def c3Stream : Nat → Nat := fun n => if n = 0 ∨ 5 ≤ n then 2 else 3

def c3Game : Game := ⟨[⟨"SimpleStrategy", Strategy.simple, Turn.init⟩]⟩

def c3RNG : RNG := ⟨c3Stream, 0, 0⟩

/-! ## Lemmas about `Turn.keep` -/

theorem keep_eq_none_iff (t : Turn) (ds : List Dice) :
    Turn.keep t ds = none ↔
      ¬(1 ≤ ds.length ∧ ds.length ≤ NUM_DICE - t.kept_dice.length) := by
  unfold Turn.keep
  split <;> simp_all

theorem keep_eq_some (t : Turn) (ds : List Dice)
    (h : 1 ≤ ds.length ∧ ds.length ≤ NUM_DICE - t.kept_dice.length) :
    Turn.keep t ds = some ⟨t.kept_dice ++ ds⟩ := by
  unfold Turn.keep
  exact if_pos h

theorem keep_some_inv {t t' : Turn} {ds : List Dice}
    (h : Turn.keep t ds = some t') :
    (1 ≤ ds.length ∧ ds.length ≤ NUM_DICE - t.kept_dice.length) ∧
      t'.kept_dice = t.kept_dice ++ ds := by
  unfold Turn.keep at h
  by_cases hc : 1 ≤ ds.length ∧ ds.length ≤ NUM_DICE - t.kept_dice.length
  · rw [if_pos hc] at h
    injection h with h2
    exact ⟨hc, by rw [← h2]⟩
  · rw [if_neg hc] at h
    exact absurd h (by simp)

theorem keep_length_le {t t' : Turn} {ds : List Dice}
    (hwf : t.kept_dice.length ≤ NUM_DICE)
    (h : Turn.keep t ds = some t') :
    t.kept_dice.length < t'.kept_dice.length ∧
      t'.kept_dice.length ≤ NUM_DICE := by
  obtain ⟨⟨h1, h2⟩, he⟩ := keep_some_inv h
  rw [he, List.length_append]
  omega

theorem applyKeeps_le {sels : List (List Dice)} :
    ∀ {t t' : Turn}, t.kept_dice.length ≤ NUM_DICE →
      applyKeeps t sels = some t' → t'.kept_dice.length ≤ NUM_DICE := by
  induction sels with
  | nil =>
    intro t t' hwf h
    simp only [applyKeeps, Option.some.injEq] at h
    rw [← h]; exact hwf
  | cons ds rest ih =>
    intro t t' hwf h
    simp only [applyKeeps] at h
    cases hk : Turn.keep t ds with
    | none => rw [hk] at h; cases h
    | some t1 =>
      rw [hk] at h
      exact ih (keep_length_le hwf hk).2 h

/-! ## Score -/

theorem score_foldl (l : List Dice) (s : Nat) :
    l.foldl (fun a d => if d.value ≠ 3 then a + d.value else a) s =
      s + (l.map (fun d => if d.value = 3 then 0 else d.value)).sum := by
  induction l generalizing s with
  | nil => simp
  | cons d ds ih =>
    simp only [List.foldl_cons, List.map_cons, List.sum_cons, ih]
    by_cases h : d.value = 3 <;> simp [h] <;> omega

/-- Claim C2: a player's score is the sum of the kept die values where
every die of value 3 contributes 0, recomputed purely from `kept_dice`. -/
theorem player_score_spec (p : Player)
    (h : ∀ d ∈ p.turn.kept_dice, 1 ≤ d.value ∧ d.value ≤ 6) :
    p.score =
      (p.turn.kept_dice.map (fun d => if d.value = 3 then 0 else d.value)).sum := by
  unfold Player.score
  rw [score_foldl, Nat.zero_add]

theorem player_score_spec_witness :
    Player.score ⟨"w", Strategy.simple, ⟨[⟨3⟩, ⟨5⟩, ⟨3⟩, ⟨2⟩]⟩⟩ =
      (([⟨3⟩, ⟨5⟩, ⟨3⟩, ⟨2⟩] : List Dice).map
        (fun d => if d.value = 3 then 0 else d.value)).sum :=
  player_score_spec ⟨"w", Strategy.simple, ⟨[⟨3⟩, ⟨5⟩, ⟨3⟩, ⟨2⟩]⟩⟩ (by decide)

/-- Claim C5: `Turn.keep` fails (models the assertion raising) exactly when
the selection size is outside `1 ≤ n ≤ NUM_DICE - |kept|`; when the
precondition holds it appends exactly the selected dice. -/
theorem keep_contract (t : Turn) (ds : List Dice) :
    (Turn.keep t ds = none ↔
      ¬(1 ≤ ds.length ∧ ds.length ≤ NUM_DICE - t.kept_dice.length)) ∧
    ((1 ≤ ds.length ∧ ds.length ≤ NUM_DICE - t.kept_dice.length) →
      Turn.keep t ds = some ⟨t.kept_dice ++ ds⟩ ∧
      ∀ t', Turn.keep t ds = some t' →
        t'.kept_dice = t.kept_dice ++ ds ∧
        t'.kept_dice.length = t.kept_dice.length + ds.length) := by
  refine ⟨keep_eq_none_iff t ds, fun h => ⟨keep_eq_some t ds h, fun t' h' => ?_⟩⟩
  obtain ⟨_, he⟩ := keep_some_inv h'
  exact ⟨he, by rw [he, List.length_append]⟩

theorem keep_contract_witness :
    Turn.keep ⟨[]⟩ [⟨2⟩] = some ⟨[⟨2⟩]⟩ :=
  ((keep_contract ⟨[]⟩ [⟨2⟩]).2 (by decide)).1

/-- Claim C4: the kept count starts at zero, never exceeds `NUM_DICE`
across any sequence of successful keeps, `over` holds exactly at
`NUM_DICE` kept dice, successful keeps only extend the collection, and a
complete turn admits no further keep. -/
theorem turn_invariants :
    Turn.init.kept_dice.length = 0 ∧
    (∀ t : Turn, t.over = true ↔ t.kept_dice.length = NUM_DICE) ∧
    (∀ (t t' : Turn) (ds : List Dice), Turn.keep t ds = some t' →
      t'.kept_dice = t.kept_dice ++ ds ∧
      t.kept_dice.length < t'.kept_dice.length) ∧
    (∀ (t : Turn) (ds : List Dice), t.over = true → Turn.keep t ds = none) ∧
    (∀ (sels : List (List Dice)) (t' : Turn),
      applyKeeps Turn.init sels = some t' →
      t'.kept_dice.length ≤ NUM_DICE) := by
  refine ⟨rfl, fun t => ?_, fun t t' ds h => ?_, fun t ds h => ?_,
    fun sels t' h => ?_⟩
  · unfold Turn.over
    exact beq_iff_eq
  · obtain ⟨⟨h1, _⟩, he⟩ := keep_some_inv h
    exact ⟨he, by rw [he, List.length_append]; omega⟩
  · have h5 : t.kept_dice.length = NUM_DICE := by
      unfold Turn.over at h
      exact beq_iff_eq.mp h
    rw [keep_eq_none_iff]
    unfold NUM_DICE at *
    omega
  · exact applyKeeps_le (by simp [Turn.init]) h

theorem turn_invariants_witness :
    Turn.keep ⟨[⟨1⟩, ⟨1⟩, ⟨1⟩, ⟨1⟩, ⟨1⟩]⟩ [⟨2⟩] = none :=
  turn_invariants.2.2.2.1 ⟨[⟨1⟩, ⟨1⟩, ⟨1⟩, ⟨1⟩, ⟨1⟩]⟩ [⟨2⟩] (by decide)

/-! ## Rolling -/

theorem dieValue_bounds (n : Nat) : 1 ≤ dieValue n ∧ dieValue n ≤ 6 := by
  unfold dieValue
  have := Nat.mod_lt n (show 0 < 6 by norm_num)
  omega

theorem rollN_spec (n : Nat) (r : RNG) :
    (rollN n r).1.length = n ∧
    (rollN n r).2.rolls = r.rolls + n ∧
    (rollN n r).2.pos = r.pos + n ∧
    (rollN n r).2.f = r.f ∧
    (∀ d ∈ (rollN n r).1, 1 ≤ d.value ∧ d.value ≤ 6) := by
  induction n generalizing r with
  | zero => simp [rollN]
  | succ n ih =>
    obtain ⟨h1, h2, h3, h4, h5⟩ := ih (Dice.roll r).2
    refine ⟨?_, ?_, ?_, ?_, ?_⟩
    · simp [rollN, h1]
    · simp only [rollN]
      rw [h2]
      simp [Dice.roll, RNG.next]
      omega
    · simp only [rollN]
      rw [h3]
      simp [Dice.roll, RNG.next]
      omega
    · simp only [rollN]
      rw [h4]
      simp [Dice.roll, RNG.next]
    · intro d hd
      simp only [rollN, List.mem_cons] at hd
      rcases hd with hd | hd
      · rw [hd]
        simp [Dice.roll, RNG.next]
        exact dieValue_bounds _
      · exact h5 d hd

/-- Claim C9: `Turn.roll` returns exactly `NUM_DICE - |kept|` freshly
rolled dice (none once the turn is complete), keeps nothing itself (it is
a pure function of the turn), each value lies in `[1,6]`, and the
stream-to-face map hits each face for exactly one residue class mod 6. -/
theorem roll_spec (t : Turn) (r : RNG) :
    (t.roll r).1.length = NUM_DICE - t.kept_dice.length ∧
    (t.over = true → (t.roll r).1 = []) ∧
    (∀ d ∈ (t.roll r).1, 1 ≤ d.value ∧ d.value ≤ 6) ∧
    (t.roll r).2.rolls = r.rolls + (NUM_DICE - t.kept_dice.length) ∧
    (∀ v, (1 ≤ v ∧ v ≤ 6) ↔ ∃ n, n < 6 ∧ dieValue n = v) ∧
    (∀ m n, m < 6 → n < 6 → dieValue m = dieValue n → m = n) := by
  obtain ⟨h1, h2, _, _, h5⟩ := rollN_spec (NUM_DICE - t.kept_dice.length) r
  refine ⟨h1, ?_, h5, h2, ?_, ?_⟩
  · intro hov
    have hlen : t.kept_dice.length = NUM_DICE := beq_iff_eq.mp hov
    have hz : (t.roll r).1.length = 0 := by
      have := h1
      unfold Turn.roll at *
      omega
    exact List.length_eq_zero.mp hz
  · intro v
    constructor
    · rintro ⟨hv1, hv6⟩
      exact ⟨v - 1, by omega, by unfold dieValue; omega⟩
    · rintro ⟨n, hn, hd⟩
      rw [← hd]
      unfold dieValue
      omega
  · intro m n hm hn h
    unfold dieValue at h
    omega

theorem roll_spec_witness :
    (Turn.roll ⟨[⟨1⟩, ⟨1⟩, ⟨1⟩, ⟨1⟩, ⟨1⟩]⟩ ⟨fun _ => 0, 0, 0⟩).1 = [] :=
  (roll_spec ⟨[⟨1⟩, ⟨1⟩, ⟨1⟩, ⟨1⟩, ⟨1⟩]⟩ ⟨fun _ => 0, 0, 0⟩).2.1 (by decide)

/-! ## The minimum-die fallback -/

theorem pyMinFold_le (l : List Dice) :
    ∀ m : Dice, (pyMinFold m l).value ≤ m.value ∧
      ∀ x ∈ l, (pyMinFold m l).value ≤ x.value := by
  induction l with
  | nil =>
    intro m
    exact ⟨Nat.le_refl _, fun x hx => absurd hx (List.not_mem_nil x)⟩
  | cons x xs ih =>
    intro m
    simp only [pyMinFold]
    obtain ⟨h1, h2⟩ := ih (if x.value < m.value then x else m)
    refine ⟨le_trans h1 (by split <;> omega), ?_⟩
    intro y hy
    rcases List.mem_cons.mp hy with rfl | hy
    · exact le_trans h1 (by split <;> omega)
    · exact h2 y hy

theorem pyMinFold_mem (l : List Dice) :
    ∀ m : Dice, pyMinFold m l = m ∨ pyMinFold m l ∈ l := by
  induction l with
  | nil => intro m; left; rfl
  | cons x xs ih =>
    intro m
    simp only [pyMinFold]
    rcases ih (if x.value < m.value then x else m) with h | h
    · rw [h]
      split
      · right; exact List.mem_cons_self _ _
      · left; rfl
    · right; exact List.mem_cons_of_mem _ h

theorem pyMinFirst_spec {l : List Dice} (h : l ≠ []) :
    ∃ d, pyMinFirst l = some d ∧ d ∈ l ∧ ∀ e ∈ l, d.value ≤ e.value := by
  match l with
  | [] => exact absurd rfl h
  | a :: as =>
    refine ⟨pyMinFold a as, rfl, ?_, ?_⟩
    · rcases pyMinFold_mem as a with h1 | h1
      · rw [h1]; exact List.mem_cons_self _ _
      · exact List.mem_cons_of_mem _ h1
    · intro e he
      obtain ⟨h1, h2⟩ := pyMinFold_le as a
      rcases List.mem_cons.mp he with rfl | he
      · exact h1
      · exact h2 e he

theorem fallbackOr_spec {dice : List Dice} (kp : List Dice) (h : dice ≠ []) :
    ∃ out, fallbackOr dice kp = some out ∧
      (kp ≠ [] → out = kp) ∧
      (kp = [] → ∃ m, out = [m] ∧ m ∈ dice ∧ ∀ e ∈ dice, m.value ≤ e.value) := by
  unfold fallbackOr
  by_cases hk : kp = []
  · subst hk
    obtain ⟨d, hd, hmem, hle⟩ := pyMinFirst_spec h
    refine ⟨[d], by simp [hd], by simp, fun _ => ⟨d, rfl, hmem, hle⟩⟩
  · refine ⟨kp, ?_, fun _ => rfl, fun hc => absurd hc hk⟩
    simp [List.isEmpty_iff, hk]

/-- Claim C6: on a non-empty offer, SimpleStrategy returns exactly the
offered dice showing 3, KeepOnesStrategy those showing 3 or 1, and
KeepOnesAndTwosStrategy those showing 3, 1 or 2; when no offered die
matches the rule, each instead returns exactly one lowest-valued offered
die. -/
theorem simple_strategies_rule (g : Game) (p : Player) (dice : List Dice)
    (r : RNG) (h : dice ≠ []) :
    (∃ out, runStrategy .simple g p dice r = some (out, r) ∧
      (dice.filter simplePred ≠ [] → out = dice.filter simplePred) ∧
      (dice.filter simplePred = [] →
        ∃ m, out = [m] ∧ m ∈ dice ∧ ∀ e ∈ dice, m.value ≤ e.value)) ∧
    (∃ out, runStrategy .keepOnes g p dice r = some (out, r) ∧
      (dice.filter keepOnesPred ≠ [] → out = dice.filter keepOnesPred) ∧
      (dice.filter keepOnesPred = [] →
        ∃ m, out = [m] ∧ m ∈ dice ∧ ∀ e ∈ dice, m.value ≤ e.value)) ∧
    (∃ out, runStrategy .keepOnesAndTwos g p dice r = some (out, r) ∧
      (dice.filter keepOnesAndTwosPred ≠ [] →
        out = dice.filter keepOnesAndTwosPred) ∧
      (dice.filter keepOnesAndTwosPred = [] →
        ∃ m, out = [m] ∧ m ∈ dice ∧ ∀ e ∈ dice, m.value ≤ e.value)) := by
  refine ⟨?_, ?_, ?_⟩
  · obtain ⟨out, ho, h1, h2⟩ := fallbackOr_spec (dice.filter simplePred) h
    refine ⟨out, ?_, h1, h2⟩
    simp [runStrategy, SimpleStrategyCall, ho]
  · obtain ⟨out, ho, h1, h2⟩ := fallbackOr_spec (dice.filter keepOnesPred) h
    refine ⟨out, ?_, h1, h2⟩
    simp [runStrategy, KeepOnesStrategyCall, ho]
  · obtain ⟨out, ho, h1, h2⟩ :=
      fallbackOr_spec (dice.filter keepOnesAndTwosPred) h
    refine ⟨out, ?_, h1, h2⟩
    simp [runStrategy, KeepOnesAndTwosStrategyCall, ho]

theorem simple_strategies_rule_witness :
    runStrategy .simple ⟨[]⟩ ⟨"w", Strategy.simple, Turn.init⟩ [⟨3⟩, ⟨5⟩]
      ⟨fun _ => 0, 0, 0⟩ = some ([⟨3⟩], ⟨fun _ => 0, 0, 0⟩) := by
  obtain ⟨out, ho, h1, _⟩ :=
    (simple_strategies_rule ⟨[]⟩ ⟨"w", Strategy.simple, Turn.init⟩ [⟨3⟩, ⟨5⟩]
      ⟨fun _ => 0, 0, 0⟩ (by decide)).1
  rw [ho, h1 (by decide)]
  rfl

/-! ## The KeepOnesUnlessLosing condition -/

theorem priorScores_ne_nil_iff {g : Game} {p : Player}
    (hp : p.turn.over = false) :
    priorScores g ≠ [] ↔ ∃ q ∈ g.players, q ≠ p ∧ q.turn.over = true := by
  unfold priorScores
  rw [Ne, List.map_eq_nil_iff, List.filter_eq_nil_iff]
  constructor
  · intro h
    push_neg at h
    obtain ⟨q, hq, hover⟩ := h
    have hov : q.turn.over = true := hover
    refine ⟨q, hq, ?_, hov⟩
    intro hqp
    rw [hqp] at hov
    rw [hov] at hp
    cases hp
  · rintro ⟨q, hq, _, hover⟩ hall
    exact (hall q hq) hover

theorem losingCond_iff {g : Game} {p : Player} (hp : p.turn.over = false) :
    losingCond g p = true ↔
      ((∃ q ∈ g.players, q ≠ p ∧ q.turn.over = true) ∧
        ∃ m, pyMinNat (priorScores g) = some m ∧ p.score < m) := by
  unfold losingCond
  split
  · rename_i hm
    simp [hm]
  · rename_i m hm
    rw [decide_eq_true_eq]
    constructor
    · intro hlt
      have hne : priorScores g ≠ [] := by
        intro hc
        rw [hc] at hm
        simp [pyMinNat] at hm
      exact ⟨(priorScores_ne_nil_iff hp).mp hne, m, hm, hlt⟩
    · rintro ⟨_, m', hm', hlt⟩
      rw [hm] at hm'
      injection hm' with hm'
      rw [hm']
      exact hlt

/-- Claim C7: on a non-empty offer, KeepOnesUnlessLosingStrategy keeps the
offered 3s, keeps an offered 1 exactly when at least one other player has
already completed their turn and the minimum score among completed players
strictly exceeds the acting player's current score, and when neither rule
selects anything keeps exactly one lowest-valued offered die. -/
theorem uol_rule (g : Game) (p : Player) (dice : List Dice) (r : RNG)
    (hp : p.turn.over = false) (h : dice ≠ []) :
    (∀ d : Dice, uolPred g p d = true ↔
      (d.value = 3 ∨ (d.value = 1 ∧
        ((∃ q ∈ g.players, q ≠ p ∧ q.turn.over = true) ∧
          ∃ m, pyMinNat (priorScores g) = some m ∧ p.score < m)))) ∧
    ∃ out, runStrategy .keepOnesUnlessLosing g p dice r = some (out, r) ∧
      (dice.filter (uolPred g p) ≠ [] → out = dice.filter (uolPred g p)) ∧
      (dice.filter (uolPred g p) = [] →
        ∃ m, out = [m] ∧ m ∈ dice ∧ ∀ e ∈ dice, m.value ≤ e.value) := by
  constructor
  · intro d
    unfold uolPred
    rw [Bool.or_eq_true, Bool.and_eq_true, beq_iff_eq, beq_iff_eq,
      losingCond_iff hp]
  · obtain ⟨out, ho, h1, h2⟩ := fallbackOr_spec (dice.filter (uolPred g p)) h
    refine ⟨out, ?_, h1, h2⟩
    simp [runStrategy, KeepOnesUnlessLosingStrategyCall, ho]

theorem uol_rule_witness :
    runStrategy .keepOnesUnlessLosing
      ⟨[⟨"q", Strategy.simple, ⟨[⟨2⟩, ⟨2⟩, ⟨2⟩, ⟨3⟩, ⟨3⟩]⟩⟩,
        ⟨"p", Strategy.keepOnesUnlessLosing, Turn.init⟩]⟩
      ⟨"p", Strategy.keepOnesUnlessLosing, Turn.init⟩ [⟨1⟩]
      ⟨fun _ => 0, 0, 0⟩ = some ([⟨1⟩], ⟨fun _ => 0, 0, 0⟩) := by
  obtain ⟨_, out, ho, h1, _⟩ :=
    uol_rule
      ⟨[⟨"q", Strategy.simple, ⟨[⟨2⟩, ⟨2⟩, ⟨2⟩, ⟨3⟩, ⟨3⟩]⟩⟩,
        ⟨"p", Strategy.keepOnesUnlessLosing, Turn.init⟩]⟩
      ⟨"p", Strategy.keepOnesUnlessLosing, Turn.init⟩ [⟨1⟩]
      ⟨fun _ => 0, 0, 0⟩ (by decide) (by decide)
  rw [ho, h1 (by decide)]
  rfl

/-! ## Earliest minimal die (C10) -/

theorem first_min_index {l : List Dice} {d : Dice} :
    d ∈ l → (∀ e ∈ l, d.value ≤ e.value) →
    ∃ i : Nat, l[i]? = some d ∧
      ∀ j : Nat, j < i → ∀ e : Dice, l[j]? = some e → d.value < e.value := by
  induction l with
  | nil => intro h; cases h
  | cons a as ih =>
    intro hmem hle
    by_cases ha : a.value = d.value
    · have had : a = d := by cases a; cases d; simp_all
      exact ⟨0, by rw [List.getElem?_cons_zero, had],
        fun j hj => absurd hj (Nat.not_lt_zero j)⟩
    · have hd_as : d ∈ as := by
        rcases List.mem_cons.mp hmem with rfl | hmm
        · exact absurd rfl ha
        · exact hmm
      have hle_as : ∀ e ∈ as, d.value ≤ e.value :=
        fun e he => hle e (List.mem_cons_of_mem _ he)
      obtain ⟨i, hi, hbefore⟩ := ih hd_as hle_as
      refine ⟨i + 1, by rw [List.getElem?_cons_succ]; exact hi, ?_⟩
      intro j hj e hje
      cases j with
      | zero =>
        rw [List.getElem?_cons_zero] at hje
        injection hje with hje
        rw [← hje]
        have := hle a (List.mem_cons_self a as)
        omega
      | succ j =>
        rw [List.getElem?_cons_succ] at hje
        exact hbefore j (Nat.lt_of_succ_lt_succ hj) e hje

theorem fallback_min_branch {dice : List Dice} (pred : Dice → Bool)
    (h : dice ≠ []) (hf : dice.filter pred = []) :
    ∃ (d : Dice) (i : Nat), fallbackOr dice (dice.filter pred) = some [d] ∧
      dice[i]? = some d ∧ (∀ e ∈ dice, d.value ≤ e.value) ∧
      ∀ j : Nat, j < i → ∀ e : Dice, dice[j]? = some e → d.value < e.value := by
  obtain ⟨out, ho, _, h2⟩ := fallbackOr_spec (dice.filter pred) h
  obtain ⟨m, hout, hmem, hle⟩ := h2 hf
  obtain ⟨i, hi, hbef⟩ := first_min_index hmem hle
  exact ⟨m, i, by rw [ho, hout], hi, hle, hbef⟩

/-- Claim C10: for each deterministic strategy, when the keep rule selects
no offered die the fallback keeps exactly the die found at the earliest
offer position of minimal value (everything offered before it is strictly
larger). -/
theorem fallback_earliest_min (g : Game) (p : Player) (dice : List Dice)
    (r : RNG) (h : dice ≠ []) :
    (dice.filter simplePred = [] → ∃ (d : Dice) (i : Nat),
      runStrategy .simple g p dice r = some ([d], r) ∧ dice[i]? = some d ∧
      (∀ e ∈ dice, d.value ≤ e.value) ∧
      ∀ j : Nat, j < i → ∀ e : Dice, dice[j]? = some e → d.value < e.value) ∧
    (dice.filter keepOnesPred = [] → ∃ (d : Dice) (i : Nat),
      runStrategy .keepOnes g p dice r = some ([d], r) ∧ dice[i]? = some d ∧
      (∀ e ∈ dice, d.value ≤ e.value) ∧
      ∀ j : Nat, j < i → ∀ e : Dice, dice[j]? = some e → d.value < e.value) ∧
    (dice.filter keepOnesAndTwosPred = [] → ∃ (d : Dice) (i : Nat),
      runStrategy .keepOnesAndTwos g p dice r = some ([d], r) ∧
      dice[i]? = some d ∧ (∀ e ∈ dice, d.value ≤ e.value) ∧
      ∀ j : Nat, j < i → ∀ e : Dice, dice[j]? = some e → d.value < e.value) ∧
    (dice.filter (uolPred g p) = [] → ∃ (d : Dice) (i : Nat),
      runStrategy .keepOnesUnlessLosing g p dice r = some ([d], r) ∧
      dice[i]? = some d ∧ (∀ e ∈ dice, d.value ≤ e.value) ∧
      ∀ j : Nat, j < i → ∀ e : Dice, dice[j]? = some e → d.value < e.value) := by
  refine ⟨fun hf => ?_, fun hf => ?_, fun hf => ?_, fun hf => ?_⟩
  · obtain ⟨d, i, ho, hi, hle, hbef⟩ := fallback_min_branch simplePred h hf
    refine ⟨d, i, ?_, hi, hle, hbef⟩
    simp [runStrategy, SimpleStrategyCall, ho]
  · obtain ⟨d, i, ho, hi, hle, hbef⟩ := fallback_min_branch keepOnesPred h hf
    refine ⟨d, i, ?_, hi, hle, hbef⟩
    simp [runStrategy, KeepOnesStrategyCall, ho]
  · obtain ⟨d, i, ho, hi, hle, hbef⟩ :=
      fallback_min_branch keepOnesAndTwosPred h hf
    refine ⟨d, i, ?_, hi, hle, hbef⟩
    simp [runStrategy, KeepOnesAndTwosStrategyCall, ho]
  · obtain ⟨d, i, ho, hi, hle, hbef⟩ :=
      fallback_min_branch (uolPred g p) h hf
    refine ⟨d, i, ?_, hi, hle, hbef⟩
    simp [runStrategy, KeepOnesUnlessLosingStrategyCall, ho]

theorem fallback_earliest_min_witness :
    runStrategy .simple ⟨[]⟩ ⟨"w", Strategy.simple, Turn.init⟩ [⟨5⟩, ⟨4⟩, ⟨6⟩]
      ⟨fun _ => 0, 0, 0⟩ = some ([⟨4⟩], ⟨fun _ => 0, 0, 0⟩) := by
  obtain ⟨d, i, hrun, hi, hle, _⟩ :=
    (fallback_earliest_min ⟨[]⟩ ⟨"w", Strategy.simple, Turn.init⟩
      [⟨5⟩, ⟨4⟩, ⟨6⟩] ⟨fun _ => 0, 0, 0⟩ (by decide)).1 (by decide)
  have hmem : d ∈ [(⟨5⟩ : Dice), ⟨4⟩, ⟨6⟩] := List.mem_iff_getElem?.mpr ⟨i, hi⟩
  have hv4 := hle ⟨4⟩ (by simp)
  simp only [List.mem_cons, List.not_mem_nil, or_false] at hmem
  rcases hmem with rfl | rfl | rfl
  · simp at hv4
  · exact hrun
  · simp at hv4

/-! ## Soundness of the strategies inside the game loop -/

theorem filter_call_sound {dice : List Dice} (pred : Dice → Bool)
    (h : dice ≠ []) :
    ∃ ks, fallbackOr dice (dice.filter pred) = some ks ∧
      1 ≤ ks.length ∧ ks.length ≤ dice.length ∧ ∀ d ∈ ks, d ∈ dice := by
  obtain ⟨out, ho, h1, h2⟩ := fallbackOr_spec (dice.filter pred) h
  by_cases hf : dice.filter pred = []
  · obtain ⟨m, hm, hmem, _⟩ := h2 hf
    subst hm
    exact ⟨[m], ho, by simp, by simpa using List.length_pos.mpr h,
      by simpa using hmem⟩
  · have he := h1 hf
    subst he
    refine ⟨dice.filter pred, ho, ?_, List.length_filter_le _ _,
      fun d hd => (List.mem_filter.mp hd).1⟩
    have := List.length_pos.mpr hf
    omega

theorem runStrategy_sound (s : Strategy) (g : Game) (p : Player)
    (dice : List Dice) (r : RNG) (h : dice ≠ []) :
    ∃ ks r', runStrategy s g p dice r = some (ks, r') ∧
      1 ≤ ks.length ∧ ks.length ≤ dice.length ∧
      (∀ d ∈ ks, d ∈ dice) ∧ r'.rolls = r.rolls := by
  cases s with
  | random =>
    have hlen : 0 < dice.length := List.length_pos.mpr h
    have hidx : r.f r.pos % dice.length < dice.length := Nat.mod_lt _ hlen
    refine ⟨[dice[r.f r.pos % dice.length]], { r with pos := r.pos + 1 },
      ?_, by simp, by simpa using hlen, ?_, rfl⟩
    · show RandomStrategyCall dice r = _
      unfold RandomStrategyCall RNG.next
      simp [List.getElem?_eq_getElem hidx]
    · intro d hd
      rw [List.mem_singleton] at hd
      rw [hd]
      exact List.getElem_mem _
  | simple =>
    obtain ⟨ks, hk, h1, h2, h3⟩ := filter_call_sound simplePred h
    exact ⟨ks, r, by simp [runStrategy, SimpleStrategyCall, hk], h1, h2, h3, rfl⟩
  | keepOnes =>
    obtain ⟨ks, hk, h1, h2, h3⟩ := filter_call_sound keepOnesPred h
    exact ⟨ks, r, by simp [runStrategy, KeepOnesStrategyCall, hk], h1, h2, h3,
      rfl⟩
  | keepOnesAndTwos =>
    obtain ⟨ks, hk, h1, h2, h3⟩ := filter_call_sound keepOnesAndTwosPred h
    exact ⟨ks, r, by simp [runStrategy, KeepOnesAndTwosStrategyCall, hk], h1,
      h2, h3, rfl⟩
  | keepOnesUnlessLosing =>
    obtain ⟨ks, hk, h1, h2, h3⟩ := filter_call_sound (uolPred g p) h
    exact ⟨ks, r,
      by simp [runStrategy, KeepOnesUnlessLosingStrategyCall, hk], h1, h2, h3,
      rfl⟩

theorem do_round_spec (p : Player) (g : Game) (r : RNG)
    (hlt : p.turn.kept_dice.length < NUM_DICE) :
    ∃ p' r', p.do_round g r = some (p', r') ∧
      p'.name = p.name ∧ p'.strategy = p.strategy ∧
      p.turn.kept_dice.length < p'.turn.kept_dice.length ∧
      p'.turn.kept_dice.length ≤ NUM_DICE ∧
      r'.rolls = r.rolls + (NUM_DICE - p.turn.kept_dice.length) := by
  have hL : (p.turn.roll r).1.length = NUM_DICE - p.turn.kept_dice.length :=
    (rollN_spec _ r).1
  have hR : (p.turn.roll r).2.rolls =
      r.rolls + (NUM_DICE - p.turn.kept_dice.length) :=
    (rollN_spec _ r).2.1
  have hne : (p.turn.roll r).1 ≠ [] := by
    rw [← List.length_pos, hL]
    omega
  obtain ⟨ks, r2, hrun, hk1, hk2, _, hkr⟩ :=
    runStrategy_sound p.strategy g p (p.turn.roll r).1 (p.turn.roll r).2 hne
  have hkeep : Turn.keep p.turn ks = some ⟨p.turn.kept_dice ++ ks⟩ :=
    keep_eq_some _ _ ⟨hk1, by omega⟩
  refine ⟨{ p with turn := ⟨p.turn.kept_dice ++ ks⟩ }, r2, ?_, rfl, rfl,
    ?_, ?_, ?_⟩
  · simp [Player.do_round, hrun, hkeep]
  · simp only [List.length_append]
    omega
  · simp only [List.length_append]
    omega
  · rw [hkr, hR]

/-! ## The per-player while loop -/

theorem playerLoop_oob (fuel i : Nat) (ps : List Player) (r : RNG)
    (h : ps[i]? = none) :
    playerLoop (fuel + 1) i ps r = some (ps, r) := by
  simp [playerLoop, h]

theorem playerLoop_spec :
    ∀ (fuel i : Nat) (ps : List Player) (r : RNG) (p : Player),
      ps[i]? = some p →
      p.turn.kept_dice.length ≤ NUM_DICE →
      NUM_DICE - p.turn.kept_dice.length < fuel →
      ∃ ps' r' p', playerLoop fuel i ps r = some (ps', r') ∧
        ps'[i]? = some p' ∧ (∀ j : Nat, j ≠ i → ps'[j]? = ps[j]?) ∧
        ps'.length = ps.length ∧
        p'.turn.over = true ∧ p'.name = p.name ∧ p'.strategy = p.strategy ∧
        p'.turn.kept_dice.length ≤ NUM_DICE ∧
        r.rolls + (NUM_DICE - p.turn.kept_dice.length) ≤ r'.rolls := by
  intro fuel
  induction fuel with
  | zero => intro i ps r p _ _ hf; omega
  | succ fuel ih =>
    intro i ps r p hp hwf hf
    by_cases hov : p.turn.over = true
    · refine ⟨ps, r, p, ?_, hp, fun j _ => rfl, rfl, hov, rfl, rfl, hwf, ?_⟩
      · simp [playerLoop, hp, hov]
      · have hk : p.turn.kept_dice.length = NUM_DICE := beq_iff_eq.mp hov
        omega
    · have hov' : p.turn.over = false := by
        cases hq : p.turn.over
        · rfl
        · exact absurd hq hov
      have hlt : p.turn.kept_dice.length < NUM_DICE := by
        rcases Nat.lt_or_ge p.turn.kept_dice.length NUM_DICE with hc | hc
        · exact hc
        · exact absurd (beq_iff_eq.mpr (Nat.le_antisymm hwf hc)) hov
      obtain ⟨p1, r1, hdo, hname, hstrat, hgrow, hwf1, hrolls⟩ :=
        do_round_spec p ⟨ps⟩ r hlt
      have hi : i < ps.length := by
        by_contra hc
        rw [List.getElem?_eq_none (Nat.le_of_not_lt hc)] at hp
        cases hp
      have hfuel1 : NUM_DICE - p1.turn.kept_dice.length < fuel := by
        have := Nat.sub_lt_sub_left hlt hgrow
        omega
      obtain ⟨ps', r', p', hloop, hgi, hgj, hlen, hov2, hn2, hs2, hwf2, hr2⟩ :=
        ih i (ps.set i p1) r1 p1 (List.getElem?_set_self hi) hwf1 hfuel1
      refine ⟨ps', r', p', ?_, hgi, ?_, ?_, hov2, by rw [hn2, hname],
        by rw [hs2, hstrat], hwf2, ?_⟩
      · simp [playerLoop, hp, hov', hdo, hloop]
      · intro j hj
        rw [hgj j hj, List.getElem?_set_ne (fun hc => hj hc.symm)]
      · rw [hlen, List.length_set]
      · omega

/-! ## The outer player loop -/

theorem neededRolls_congr :
    ∀ (k i : Nat) (ps1 ps2 : List Player),
      (∀ j : Nat, i ≤ j → j < i + k → ps1[j]? = ps2[j]?) →
      neededRolls ps1 i k = neededRolls ps2 i k := by
  intro k
  induction k with
  | zero => intro i ps1 ps2 _; rfl
  | succ k ih =>
    intro i ps1 ps2 h
    simp only [neededRolls]
    rw [h i (Nat.le_refl i) (by omega),
      ih (i + 1) ps1 ps2 (fun j h1 h2 => h j (by omega) (by omega))]

theorem playFrom_spec :
    ∀ (k i : Nat) (ps : List Player) (r : RNG),
      (∀ q ∈ ps, q.turn.kept_dice.length ≤ NUM_DICE) →
      ∃ ps' r', playFrom k i ps r = some (ps', r') ∧
        ps'.length = ps.length ∧
        (∀ q ∈ ps', q.turn.kept_dice.length ≤ NUM_DICE) ∧
        (∀ j : Nat, j < i ∨ i + k ≤ j → ps'[j]? = ps[j]?) ∧
        (∀ j : Nat, i ≤ j → j < i + k → ∀ q : Player,
          ps'[j]? = some q → q.turn.over = true) ∧
        (∀ (j : Nat) (q : Player), ps[j]? = some q → ∃ q',
          ps'[j]? = some q' ∧ q'.name = q.name ∧ q'.strategy = q.strategy) ∧
        r.rolls + neededRolls ps i k ≤ r'.rolls := by
  intro k
  induction k with
  | zero =>
    intro i ps r hwf
    refine ⟨ps, r, rfl, rfl, hwf, fun j _ => rfl, ?_, ?_, ?_⟩
    · intro j h1 h2
      omega
    · exact fun j q hq => ⟨q, hq, rfl, rfl⟩
    · simp [neededRolls]
  | succ k ih =>
    intro i ps r hwf
    cases hp : ps[i]? with
    | none =>
      obtain ⟨ps', r', hplay, hlen, hwf', hout, hover, hpres, hrolls⟩ :=
        ih (i + 1) ps r hwf
      refine ⟨ps', r', ?_, hlen, hwf', ?_, ?_, hpres, ?_⟩
      · simp [playFrom, playerLoop_oob NUM_DICE i ps r hp, hplay]
      · intro j hj
        apply hout
        rcases hj with hj | hj
        · left; omega
        · right; omega
      · intro j hj1 hj2 q hq
        by_cases hji : j = i
        · subst hji
          rw [hout j (Or.inl (by omega)), hp] at hq
          cases hq
        · exact hover j (by omega) (by omega) q hq
      · simp only [neededRolls] at *
        rw [hp] at *
        simp only [stillNeeded] at *
        omega
    | some p =>
      have hwfp : p.turn.kept_dice.length ≤ NUM_DICE :=
        hwf p (List.mem_iff_getElem?.mpr ⟨i, hp⟩)
      obtain ⟨ps1, r1, p', hloop, hgi, hgj, hlen1, hov1, hn1, hs1, hwfp', hr1⟩ :=
        playerLoop_spec (NUM_DICE + 1) i ps r p hp hwfp (by omega)
      have hwfs1 : ∀ q ∈ ps1, q.turn.kept_dice.length ≤ NUM_DICE := by
        intro q hq
        obtain ⟨j, hj⟩ := List.mem_iff_getElem?.mp hq
        by_cases hji : j = i
        · subst hji
          rw [hgi] at hj
          injection hj with hj
          rw [← hj]
          exact hwfp'
        · rw [hgj j hji] at hj
          exact hwf q (List.mem_iff_getElem?.mpr ⟨j, hj⟩)
      obtain ⟨ps', r', hplay, hlen, hwf', hout, hover, hpres, hrolls⟩ :=
        ih (i + 1) ps1 r1 hwfs1
      refine ⟨ps', r', ?_, by rw [hlen, hlen1], hwf', ?_, ?_, ?_, ?_⟩
      · simp [playFrom, hloop, hplay]
      · intro j hj
        have h1 : ps'[j]? = ps1[j]? := by
          apply hout
          rcases hj with hj | hj
          · left; omega
          · right; omega
        have hji : j ≠ i := by omega
        rw [h1, hgj j hji]
      · intro j hj1 hj2 q hq
        by_cases hji : j = i
        · subst hji
          rw [hout j (Or.inl (by omega)), hgi] at hq
          injection hq with hq
          rw [← hq]
          exact hov1
        · exact hover j (by omega) (by omega) q hq
      · intro j q hq
        by_cases hji : j = i
        · subst hji
          rw [hp] at hq
          injection hq with hq
          refine ⟨p', ?_, ?_, ?_⟩
          · rw [hout j (Or.inl (by omega))]
            exact hgi
          · rw [hn1, hq]
          · rw [hs1, hq]
        · obtain ⟨q', hq', hn, hs⟩ := hpres j q (by rw [hgj j hji]; exact hq)
          exact ⟨q', hq', hn, hs⟩
      · have hcong : neededRolls ps1 (i + 1) k = neededRolls ps (i + 1) k :=
          neededRolls_congr k (i + 1) ps1 ps (fun j h1 h2 => hgj j (by omega))
        rw [hcong] at hrolls
        simp only [neededRolls]
        rw [hp]
        simp only [stillNeeded]
        omega

/-! ## The winner scan -/

theorem minFrom_cons (m : Nat) (q : Player) (qs : List Player) :
    minFrom m (q :: qs) = minFrom (Nat.min m q.score) qs := rfl

theorem natMin_if (a b : Nat) : Nat.min a b = if a ≤ b then a else b := rfl

theorem minFrom_le_seed : ∀ (ps : List Player) (m : Nat), minFrom m ps ≤ m := by
  intro ps
  induction ps with
  | nil => intro m; exact Nat.le_refl m
  | cons q qs ih =>
    intro m
    calc minFrom m (q :: qs) = minFrom (Nat.min m q.score) qs := rfl
      _ ≤ Nat.min m q.score := ih _
      _ ≤ m := Nat.min_le_left _ _

theorem winnersStep_cons (w : Player) (ws : List Player) (q : Player) :
    winnersStep (w :: ws) q =
      if q.score < w.score then [q]
      else if q.score == w.score then (w :: ws) ++ [q]
      else (w :: ws) := rfl

theorem winners_fold :
    ∀ (ps acc : List Player) (m : Nat), acc ≠ [] →
      (∀ w ∈ acc, w.score = m) →
      List.foldl winnersStep acc ps =
        (if minFrom m ps = m then acc else []) ++
          ps.filter (fun q => q.score == minFrom m ps) := by
  intro ps
  induction ps with
  | nil =>
    intro acc m hne hall
    simp [minFrom]
  | cons q qs ih =>
    intro acc m hne hall
    obtain ⟨w, ws, rfl⟩ : ∃ w ws, acc = w :: ws := by
      cases acc with
      | nil => exact absurd rfl hne
      | cons w ws => exact ⟨w, ws, rfl⟩
    have hw : w.score = m := hall w (List.mem_cons_self _ _)
    rw [List.foldl_cons]
    rcases Nat.lt_trichotomy q.score m with hlt | heq | hgt
    · have hstep : winnersStep (w :: ws) q = [q] := by
        rw [winnersStep_cons, if_pos (by omega)]
      rw [hstep, ih [q] q.score (by simp) (by simp)]
      have hmin : minFrom m (q :: qs) = minFrom q.score qs := by
        rw [minFrom_cons]
        have hmq : Nat.min m q.score = q.score := by
          rw [natMin_if]
          split <;> omega
        rw [hmq]
      rw [hmin]
      have hne2 : minFrom q.score qs ≠ m := by
        have := minFrom_le_seed qs q.score
        omega
      rw [if_neg hne2, List.nil_append, List.filter_cons]
      by_cases hq : minFrom q.score qs = q.score
      · rw [if_pos hq]
        have hb : (q.score == minFrom q.score qs) = true :=
          beq_iff_eq.mpr hq.symm
        rw [hb]
        simp
      · rw [if_neg hq]
        have hb : (q.score == minFrom q.score qs) = false :=
          beq_eq_false_iff_ne.mpr (fun hc => hq hc.symm)
        rw [hb]
        simp
    · have hstep : winnersStep (w :: ws) q = (w :: ws) ++ [q] := by
        rw [winnersStep_cons, if_neg (by omega),
          if_pos (beq_iff_eq.mpr (by omega))]
      have hall2 : ∀ x ∈ (w :: ws) ++ [q], x.score = m := by
        intro x hx
        rcases List.mem_append.mp hx with hx | hx
        · exact hall x hx
        · rw [List.mem_singleton] at hx
          rw [hx]
          exact heq
      rw [hstep, ih ((w :: ws) ++ [q]) m (by simp) hall2]
      have hmin : minFrom m (q :: qs) = minFrom m qs := by
        rw [minFrom_cons, heq]
        have hmq : Nat.min m m = m := by
          rw [natMin_if]
          split <;> omega
        rw [hmq]
      rw [hmin, List.filter_cons]
      by_cases hq : minFrom m qs = m
      · rw [if_pos hq, if_pos hq]
        have hb : (q.score == minFrom m qs) = true := beq_iff_eq.mpr (by omega)
        rw [hb]
        simp
      · rw [if_neg hq, if_neg hq]
        have hb : (q.score == minFrom m qs) = false :=
          beq_eq_false_iff_ne.mpr (by omega)
        rw [hb]
        simp
    · have hstep : winnersStep (w :: ws) q = (w :: ws) := by
        rw [winnersStep_cons, if_neg (by omega), if_neg]
        intro hc
        have := beq_iff_eq.mp hc
        omega
      rw [hstep, ih (w :: ws) m hne hall]
      have hmin : minFrom m (q :: qs) = minFrom m qs := by
        rw [minFrom_cons]
        have hmq : Nat.min m q.score = m := by
          rw [natMin_if]
          split <;> omega
        rw [hmq]
      rw [hmin, List.filter_cons]
      have hb : (q.score == minFrom m qs) = false := by
        have := minFrom_le_seed qs m
        exact beq_eq_false_iff_ne.mpr (by omega)
      rw [hb]
      simp

theorem computeWinners_eq (ps : List Player) :
    computeWinners ps = ps.filter (fun q => q.score == minScoreSpec ps) := by
  cases ps with
  | nil => rfl
  | cons p rest =>
    have h0 : computeWinners (p :: rest) = List.foldl winnersStep [p] rest :=
      rfl
    have hm : minScoreSpec (p :: rest) = minFrom p.score rest := rfl
    rw [h0, winners_fold rest [p] p.score (by simp) (by simp), hm,
      List.filter_cons]
    by_cases hq : minFrom p.score rest = p.score
    · rw [if_pos hq]
      have hb : (p.score == minFrom p.score rest) = true :=
        beq_iff_eq.mpr hq.symm
      rw [hb]
      simp
    · rw [if_neg hq]
      have hb : (p.score == minFrom p.score rest) = false :=
        beq_eq_false_iff_ne.mpr (fun hc => hq hc.symm)
      rw [hb]
      simp

/-! ## Claims about the whole game -/

/-- Claim C8: every strategy invocation receives a non-empty offer of
exactly the remaining capacity (between 1 and `NUM_DICE`) and returns
between 1 and that many dice drawn from the offer, so the `keep`
precondition never fails: `Game.play` always succeeds on a well-formed
game. -/
theorem play_no_violation :
    (∀ (s : Strategy) (g : Game) (p : Player) (dice : List Dice) (r : RNG),
      dice ≠ [] →
      ∃ ks r', runStrategy s g p dice r = some (ks, r') ∧
        1 ≤ ks.length ∧ ks.length ≤ dice.length ∧ ∀ d ∈ ks, d ∈ dice) ∧
    (∀ (t : Turn) (r : RNG), t.over = false →
      t.kept_dice.length ≤ NUM_DICE →
      1 ≤ (t.roll r).1.length ∧ (t.roll r).1.length ≤ NUM_DICE ∧
      (t.roll r).1.length = NUM_DICE - t.kept_dice.length) ∧
    (∀ (g : Game) (r : RNG),
      (∀ p ∈ g.players, p.turn.kept_dice.length ≤ NUM_DICE) →
      ∃ ws r', Game.play g r = some (ws, r')) := by
  refine ⟨?_, ?_, ?_⟩
  · intro s g p dice r h
    obtain ⟨ks, r', h1, h2, h3, h4, _⟩ := runStrategy_sound s g p dice r h
    exact ⟨ks, r', h1, h2, h3, h4⟩
  · intro t r hov hwf
    have hL : (t.roll r).1.length = NUM_DICE - t.kept_dice.length :=
      (rollN_spec _ r).1
    have hne : t.kept_dice.length ≠ NUM_DICE := by
      intro hc
      have hov2 : (t.kept_dice.length == NUM_DICE) = false := hov
      rw [hc] at hov2
      simp at hov2
    refine ⟨?_, ?_, hL⟩ <;> omega
  · intro g r hwf
    obtain ⟨ps', r', hplay, _, _, _, _, _, _⟩ :=
      playFrom_spec g.players.length 0 g.players r hwf
    exact ⟨computeWinners ps', r', by simp [Game.play, hplay]⟩

theorem play_no_violation_witness :
    (Game.play c3Game c3RNG).isSome = true := by
  obtain ⟨ws, r', h⟩ := play_no_violation.2.2 c3Game c3RNG (by decide)
  rw [h]
  rfl

/-- Claim C1: on any well-formed game, `play` brings every player's turn
to the complete state (players processed in list order) and returns
exactly the players achieving the minimum final score, preserving the
original player order; e.g. final scores 4, 4, 7 yield the first two
players. -/
theorem play_winners (g : Game) (r : RNG)
    (hwf : ∀ p ∈ g.players, p.turn.kept_dice.length ≤ NUM_DICE) :
    ∃ ps' r', playFrom g.players.length 0 g.players r = some (ps', r') ∧
      Game.play g r = some (computeWinners ps', r') ∧
      ps'.length = g.players.length ∧
      (∀ q ∈ ps', q.turn.over = true) ∧
      (∀ (j : Nat) (q : Player), g.players[j]? = some q →
        ∃ q', ps'[j]? = some q' ∧ q'.name = q.name ∧ q'.strategy = q.strategy) ∧
      computeWinners ps' = ps'.filter (fun q => q.score == minScoreSpec ps') ∧
      (∀ a b c : Player, a.score = 4 → b.score = 4 → c.score = 7 →
        computeWinners [a, b, c] = [a, b]) := by
  obtain ⟨ps', r', hplay, hlen, _, _, hover, hpres, _⟩ :=
    playFrom_spec g.players.length 0 g.players r hwf
  refine ⟨ps', r', hplay, by simp [Game.play, hplay], hlen, ?_, hpres,
    computeWinners_eq ps', ?_⟩
  · intro q hq
    obtain ⟨j, hj⟩ := List.mem_iff_getElem?.mp hq
    have hjlt : j < ps'.length := by
      by_contra hc
      rw [List.getElem?_eq_none (Nat.le_of_not_lt hc)] at hj
      cases hj
    exact hover j (Nat.zero_le j) (by omega) q hj
  · intro a b c ha hb hc
    simp [computeWinners, winnersStep, ha, hb, hc]

theorem play_winners_witness :
    computeWinners
      [⟨"A", Strategy.simple, ⟨[⟨4⟩]⟩⟩, ⟨"B", Strategy.simple, ⟨[⟨4⟩]⟩⟩,
        ⟨"C", Strategy.simple, ⟨[⟨7⟩]⟩⟩] =
      [⟨"A", Strategy.simple, ⟨[⟨4⟩]⟩⟩, ⟨"B", Strategy.simple, ⟨[⟨4⟩]⟩⟩] := by
  obtain ⟨ps', r', _, _, _, _, _, _, hex⟩ :=
    play_winners ⟨[]⟩ ⟨fun _ => 0, 0, 0⟩ (by simp)
  exact hex ⟨"A", Strategy.simple, ⟨[⟨4⟩]⟩⟩ ⟨"B", Strategy.simple, ⟨[⟨4⟩]⟩⟩
    ⟨"C", Strategy.simple, ⟨[⟨7⟩]⟩⟩ (by decide) (by decide) (by decide)

/-- Claim C3 fails on the code: with a single `SimpleStrategy` player the
first round (values 3,4,4,4,4) keeps one die, so the second round re-rolls
the four open slots (values 3,3,3,3), for 5 + 4 = 9 individual die rolls
where the claim predicts `N * NUM_DICE = 5`. -/
theorem play_rolls_counterexample :
    (Game.play c3Game c3RNG).map (fun x => x.2.rolls) = some 9 ∧
      (9 : Nat) ≠ c3Game.players.length * NUM_DICE := by
  constructor
  · rfl
  · decide

theorem neededRolls_fresh :
    ∀ (k i : Nat) (ps : List Player), i + k ≤ ps.length →
      (∀ p ∈ ps, p.turn.kept_dice = []) →
      neededRolls ps i k = k * NUM_DICE := by
  intro k
  induction k with
  | zero => intro i ps _ _; rfl
  | succ k ih =>
    intro i ps hik hfresh
    have hi : i < ps.length := by omega
    simp only [neededRolls]
    rw [List.getElem?_eq_getElem hi]
    have hfr : ps[i].turn.kept_dice = [] := hfresh _ (List.getElem_mem hi)
    have h1 : stillNeeded (some ps[i]) = NUM_DICE := by
      simp [stillNeeded, hfr]
    rw [h1, ih (i + 1) ps (by omega) hfresh, Nat.succ_mul]
    exact Nat.add_comm _ _

/-- Claim C3 (amended): a game whose players all start with fresh turns
performs at least `N * NUM_DICE` individual die rolls — each player's
first roll alone already rolls `NUM_DICE` dice; the counterexample above
shows the total can strictly exceed `N * NUM_DICE`. -/
theorem play_rolls_lower_bound (g : Game) (r : RNG)
    (hfresh : ∀ p ∈ g.players, p.turn.kept_dice = []) :
    ∃ ws r', Game.play g r = some (ws, r') ∧
      r.rolls + g.players.length * NUM_DICE ≤ r'.rolls := by
  have hwf : ∀ p ∈ g.players, p.turn.kept_dice.length ≤ NUM_DICE := by
    intro p hp
    rw [hfresh p hp]
    simp
  obtain ⟨ps', r', hplay, _, _, _, _, _, hrolls⟩ :=
    playFrom_spec g.players.length 0 g.players r hwf
  refine ⟨computeWinners ps', r', by simp [Game.play, hplay], ?_⟩
  rw [neededRolls_fresh g.players.length 0 g.players (by omega) hfresh]
    at hrolls
  exact hrolls

theorem play_rolls_lower_bound_witness :
    NUM_DICE ≤ ((Game.play c3Game c3RNG).map (fun x => x.2.rolls)).getD 0 := by
  obtain ⟨ws, r', hp, hb⟩ := play_rolls_lower_bound c3Game c3RNG (by decide)
  rw [hp]
  simpa [c3RNG] using hb
